import Mathlib

/-!
Shallow embedding, in Lean 4, of the request-signing engine of the pxi/x
repository (package `aws`, with the `envrc` parser and the `mfa` TOTP
generator), together with proofs about the embedded definitions.

Conventions used throughout:

* Go byte strings are modelled as `List Nat`, every element intended to be
  `< 256`; machine bytes stay plain natural numbers.
* Go `string` values that the claims treat as text (header names, scope
  components, ...) are modelled as Lean `String` and converted to bytes
  with `strBytes`; for the ASCII data handled by this code the conversion
  matches Go byte-for-byte.
* Hash primitives (`crypto/sha256`, `crypto/sha1`) are abstract parameters
  of type `List Nat → List Nat`; the HMAC construction on top of them
  (`crypto/hmac`: key padding to a 64-byte block, ipad/opad) is embedded
  concretely.
* Stateful Go code (`*http.Request` mutation, `io.Reader` consumption) is
  embedded with explicit state passing; fallible code returns `Option` or
  `Except`.
-/

namespace PxiX

/-- Go byte strings. -/
abbrev Bytes := List Nat

/-- Byte view of an (ASCII) Go string. -/
def strBytes (s : String) : Bytes := s.toList.map Char.toNat

/-- Back from bytes to a Lean string (used at ASCII boundaries only). -/
def bytesStr (bs : Bytes) : String := String.mk (bs.map Char.ofNat)

/-! ### Lexicographic byte order (Go `sort.Strings` comparison) -/

/-- Byte-wise lexicographic `≤` on byte strings, as Go compares strings. -/
def lexLe : Bytes → Bytes → Bool
  | [], _ => true
  | _ :: _, [] => false
  | a :: as, b :: bs => if a < b then true else if b < a then false else lexLe as bs

/-- `lexLe` as a relation, for use with `List.insertionSort`. -/
def lexRel (a b : Bytes) : Prop := lexLe a b = true

instance : DecidableRel lexRel := fun a b => by unfold lexRel; infer_instance

theorem lexLe_total : ∀ a b : Bytes, lexLe a b = true ∨ lexLe b a = true := by
  intro a
  induction a with
  | nil => intro b; left; rfl
  | cons x xs ih =>
    intro b
    cases b with
    | nil => right; rfl
    | cons y ys =>
      by_cases hxy : x < y
      · left; simp [lexLe, hxy]
      · by_cases hyx : y < x
        · right; simp [lexLe, hyx]
        · have hx : ¬ y < x := hyx
          rcases ih ys with h | h
          · left; simp [lexLe, hxy, hyx, h]
          · right; simp [lexLe, hxy, hyx, h]

theorem lexLe_trans : ∀ a b c : Bytes,
    lexLe a b = true → lexLe b c = true → lexLe a c = true := by
  intro a
  induction a with
  | nil => intro b c _ _; rfl
  | cons x xs ih =>
    intro b c hab hbc
    cases b with
    | nil => simp [lexLe] at hab
    | cons y ys =>
      cases c with
      | nil => simp [lexLe] at hbc
      | cons z zs =>
        simp only [lexLe] at hab hbc ⊢
        rcases Nat.lt_trichotomy x y with hxy | hxy | hxy
        · rcases Nat.lt_trichotomy y z with hyz | hyz | hyz
          · simp [lt_trans hxy hyz]
          · subst hyz; simp [hxy]
          · rw [if_neg (by omega), if_pos hyz] at hbc
            exact absurd hbc (by simp)
        · subst hxy
          rw [if_neg (by omega), if_neg (by omega)] at hab
          rcases Nat.lt_trichotomy x z with hxz | hxz | hxz
          · simp [hxz]
          · subst hxz
            rw [if_neg (by omega), if_neg (by omega)] at hbc ⊢
            exact ih ys zs hab hbc
          · rw [if_neg (by omega), if_pos hxz] at hbc
            exact absurd hbc (by simp)
        · rw [if_neg (by omega), if_pos hxy] at hab
          exact absurd hab (by simp)

instance : IsTotal Bytes lexRel := ⟨lexLe_total⟩

instance : IsTrans Bytes lexRel := ⟨fun a b c => lexLe_trans a b c⟩

/-! ### Percent escaping (Go `net/url`, query component mode) -/

/-- Is the byte an ASCII letter or digit (Go `url.shouldEscape` alnum test)? -/
def isAlphaNum (b : Nat) : Bool :=
  (65 ≤ b && b ≤ 90) || (97 ≤ b && b ≤ 122) || (48 ≤ b && b ≤ 57)

/-- Go `url.shouldEscape(c, encodeQueryComponent)`: only alphanumerics and
`-`, `_`, `.`, `~` stay unescaped. -/
def shouldEscapeQuery (b : Nat) : Bool :=
  !(isAlphaNum b || b == 45 || b == 95 || b == 46 || b == 126)

/-- Upper-case hex digit byte for a nibble, as `net/url` emits. -/
def upperHexDigit (n : Nat) : Nat := if n < 10 then 48 + n else 55 + n

/-- Go `url.QueryEscape` on a single byte: space becomes `+`, unescaped
bytes pass through, everything else becomes `%XX`. -/
def queryEscapeByte (b : Nat) : Bytes :=
  if b = 32 then [43]
  else if shouldEscapeQuery b then [37, upperHexDigit (b / 16), upperHexDigit (b % 16)]
  else [b]

/-- Go `url.QueryEscape` (byte-wise over the whole string). -/
def queryEscape (s : Bytes) : Bytes := s.flatMap queryEscapeByte

/-- `strings.Replace(s, "+", "%20", -1)` on bytes. -/
def plusToPct20 (s : Bytes) : Bytes :=
  s.flatMap (fun b => if b = 43 then [37, 50, 48] else [b])

/-- The `escape` closure of `aws.canonicalQueryString`:
`strings.Replace(url.QueryEscape(s), "+", "%20", -1)`. -/
def escapeAws (s : Bytes) : Bytes := plusToPct20 (queryEscape s)

/-- Hex digit value of a byte (Go `net/url` `unhex`). -/
def unhexDigit (b : Nat) : Option Nat :=
  if 48 ≤ b ∧ b ≤ 57 then some (b - 48)
  else if 97 ≤ b ∧ b ≤ 102 then some (b - 87)
  else if 65 ≤ b ∧ b ≤ 70 then some (b - 55)
  else none

/-- Go `url.QueryUnescape`: `%XX` decodes, `+` becomes space, a stray or
short `%` sequence is an error. -/
def queryUnescape : Bytes → Option Bytes
  | [] => some []
  | b :: rest =>
    if b = 37 then
      match rest with
      | a :: c :: rest2 =>
        match unhexDigit a, unhexDigit c with
        | some ha, some hc => (queryUnescape rest2).map (fun r => (16 * ha + hc) :: r)
        | _, _ => none
      | _ => none
    else if b = 43 then (queryUnescape rest).map (fun r => 32 :: r)
    else (queryUnescape rest).map (fun r => b :: r)

/-! ### Query parsing (Go `url.Values` / `URL.Query`) -/

/-- Split a byte string on a separator byte, keeping empty segments
(`strings.Split` behaviour for a 1-byte separator). -/
def splitSep (sep : Nat) : Bytes → List Bytes
  | [] => [[]]
  | b :: rest =>
    if b = sep then [] :: splitSep sep rest
    else
      match splitSep sep rest with
      | [] => [[b]]
      | s :: ss => (b :: s) :: ss

/-- Cut a segment at the first `=` byte; if there is none the value is
empty (Go `parseQuery`). -/
def cutEq : Bytes → Bytes × Bytes
  | [] => ([], [])
  | b :: rest =>
    if b = 61 then ([], rest)
    else
      let p := cutEq rest
      (b :: p.1, p.2)

/-- One `key=value` segment of a query: empty segments are skipped, both
sides are query-unescaped, and a pair whose key or value fails to unescape
is dropped (Go `parseQuery` records the error and continues; `URL.Query`
then discards the error). -/
def parsePair (seg : Bytes) : Option (Bytes × Bytes) :=
  if seg = [] then none
  else
    match queryUnescape (cutEq seg).1, queryUnescape (cutEq seg).2 with
    | some k, some v => some (k, v)
    | _, _ => none

/-- Go `URL.Query()` for our purposes: the flat, in-order list of decoded
`(key, value)` pairs. (Go groups equal keys into a map of value slices and
iterates the map in arbitrary order; `canonicalQueryString` sorts the
rendered pairs afterwards, so the flat list produces the same output.) -/
def parseQuery (raw : Bytes) : List (Bytes × Bytes) :=
  (splitSep 38 raw).filterMap parsePair

/-- `strings.Join` with a 1-byte separator. -/
def joinSep (sep : Nat) : List Bytes → Bytes
  | [] => []
  | [x] => x
  | x :: xs => x ++ sep :: joinSep sep xs

/-- The rendering of one decoded pair inside `aws.canonicalQueryString`:
`escape(k) + "=" + v` where `v` is escaped only when non-empty. -/
def renderPair (p : Bytes × Bytes) : Bytes :=
  escapeAws p.1 ++ 61 :: (if p.2 = [] then [] else escapeAws p.2)

/-- `aws.canonicalQueryString`, on the raw query bytes of the URL. -/
def canonicalQueryString (raw : Bytes) : Bytes :=
  joinSep 38 (List.insertionSort lexRel ((parseQuery raw).map renderPair))

/-! ### Spec-side rendering of the canonical query string (for C4) -/

/-- Escaping of one byte as the specification words it: space becomes
`%20` (never `+`), unreserved bytes pass through, everything else becomes
`%XX`. -/
def escByteSpec (b : Nat) : Bytes :=
  if b = 32 then [37, 50, 48]
  else if isAlphaNum b || b == 45 || b == 95 || b == 46 || b == 126 then [b]
  else [37, upperHexDigit (b / 16), upperHexDigit (b % 16)]

/-- Spec-side percent escaping of a whole parameter. -/
def escapeSpec (s : Bytes) : Bytes := s.flatMap escByteSpec

/-- Spec-side pair rendering: every parameter name and value is escaped,
and an empty value renders as `key=`. -/
def renderPairSpec (p : Bytes × Bytes) : Bytes :=
  escapeSpec p.1 ++ 61 :: escapeSpec p.2

/-- The canonical query string as the specification describes it: escape
each pair, sort the encoded `key=value` strings lexicographically, join
with `&`; the empty query yields the empty string. -/
def canonicalQueryStringSpec (raw : Bytes) : Bytes :=
  joinSep 38 (List.insertionSort lexRel ((parseQuery raw).map renderPairSpec))

/-! ### Hex encoding (`fmt %x` on a byte slice) -/

/-- Lower-case hex digit byte for a nibble. -/
def lowerHexDigit (n : Nat) : Nat := if n < 10 then 48 + n else 87 + n

/-- `%x` formatting of a byte slice: two lower-case hex digits per byte. -/
def hexBytes (bs : Bytes) : String :=
  bytesStr (bs.flatMap (fun b => [lowerHexDigit (b / 16), lowerHexDigit (b % 16)]))

/-! ### HMAC (`crypto/hmac` over an abstract compression hash)

`sha` stands for the underlying hash function (`sha256.New` or `sha1.New`);
both use a 64-byte block, which is what `crypto/hmac` pads the key to. -/

/-- Key preparation of `crypto/hmac`: hash an over-long key, then pad with
zero bytes to the 64-byte block size. -/
def hmacKeyPad (sha : Bytes → Bytes) (key : Bytes) : Bytes :=
  let k := if 64 < key.length then sha key else key
  k ++ List.replicate (64 - k.length) 0

/-- `hmac.New(sha, key)` followed by writing `msg` and summing:
`sha(opad ++ sha(ipad ++ msg))` with the padded key xored into the pads. -/
def hmacSum (sha : Bytes → Bytes) (key msg : Bytes) : Bytes :=
  let k := hmacKeyPad sha key
  sha ((k.map (fun b => b ^^^ 92)) ++ sha ((k.map (fun b => b ^^^ 54)) ++ msg))

/-! ### Config and credential resolution (`aws.go`) -/

/-- `aws.Config`: explicitly supplied credential fields. -/
structure Config where
  kid : String
  key : String
  tok : String
deriving DecidableEq

def accessKeyEnvVars : List String := ["AWS_ACCESS_KEY_ID", "AWS_ACCESS_KEY"]

def secretKeyEnvVars : List String := ["AWS_SECRET_ACCESS_KEY", "AWS_SECRET_KEY"]

def sessionTokenEnvVars : List String := ["AWS_SESSION_TOKEN"]

/-- `aws.maybeLoadFromEnv`: keep a non-empty value, otherwise walk the
alias names in order, keeping the first non-empty environment value. The
process environment is the explicit function `env` (a missing variable is
the empty string, as with `os.Getenv`). -/
def maybeLoadFromEnv (s : String) (vars : List String) (env : String → String) : String :=
  vars.foldl (fun vs v => if vs = "" then env v else vs) s

/-- First component of `Config.credentials()`: the resolved key ID. -/
def resolvedKid (env : String → String) (c : Config) : String :=
  maybeLoadFromEnv c.kid accessKeyEnvVars env

/-- Second component of `Config.credentials()`: the resolved secret key. -/
def resolvedKey (env : String → String) (c : Config) : String :=
  maybeLoadFromEnv c.key secretKeyEnvVars env

/-- Third component of `Config.credentials()`: the resolved session token. -/
def resolvedTok (env : String → String) (c : Config) : String :=
  maybeLoadFromEnv c.tok sessionTokenEnvVars env

/-- The error kinds the signing engine can surface. `noCredentials` is
`aws.ErrNoCredentials`; `dateParse` stands for the `time.Parse` /
`http.ParseTime` errors returned through `ensureDate`. -/
inductive SigError where
  | noCredentials
  | dateParse
deriving DecidableEq

/-- `aws.Session`: scope, session token, and the derived signing key. -/
structure Session where
  token : String
  scope : List String
  key : Bytes
deriving DecidableEq

def aws4Request : String := "aws4_request"

/-- `Config.NewSession`: resolve credentials, fail when the key ID or the
secret key is missing, otherwise build the scope and chain-derive the
signing key exactly as the Go loop does (re-keying the HMAC with the
previous sum for every scope component after the key ID). The session
date (`now().UTC().Format("20060102")`) is the explicit `date` argument,
standing for the injected clock. -/
def NewSession (sha : Bytes → Bytes) (env : String → String) (c : Config)
    (region service date : String) : Except SigError Session :=
  let kid := resolvedKid env c
  let key := resolvedKey env c
  let tok := resolvedTok env c
  if kid = "" ∨ key = "" then .error .noCredentials
  else
    let scope := [kid, date, region, service, aws4Request]
    .ok { token := tok, scope := scope,
          key := (scope.drop 1).foldl (fun k part => hmacSum sha k (strBytes part))
                   (strBytes ("AWS4" ++ key)) }

/-- The four-stage chained HMAC reference, as the specification words it:
stage 1 is keyed by `"AWS4" + secretKey` over the date, each later stage
is keyed by the previous output over region, service, `"aws4_request"`. -/
def refDerivedKey (sha : Bytes → Bytes) (secretKey date region service : String) : Bytes :=
  hmacSum sha
    (hmacSum sha
      (hmacSum sha
        (hmacSum sha (strBytes ("AWS4" ++ secretKey)) (strBytes date))
        (strBytes region))
      (strBytes service))
    (strBytes aws4Request)

/-! ### Provider-based credential resolution (`cred.go`) -/

/-- `aws.credentials` of `cred.go`. -/
structure credentials where
  KeyID : String
  SecretKey : String
  SessionToken : String
deriving DecidableEq

/-- `environ.Get`: fill each still-empty field from its environment alias
list (never errors). -/
def environGet (env : String → String) (cred : credentials) : credentials :=
  { KeyID := maybeLoadFromEnv cred.KeyID accessKeyEnvVars env,
    SecretKey := maybeLoadFromEnv cred.SecretKey secretKeyEnvVars env,
    SessionToken := maybeLoadFromEnv cred.SessionToken sessionTokenEnvVars env }

/-- The provider loop of `credentials.Init`: providers run in order while
both `KeyID` and `SecretKey` are still empty. (Providers are modelled as
pure update functions; the only provider in the source, `environ`, never
returns an error.) -/
def credInitLoop (providers : List (credentials → credentials)) (c : credentials) :
    credentials :=
  match providers with
  | [] => c
  | p :: ps => if c.KeyID = "" ∧ c.SecretKey = "" then credInitLoop ps (p c) else c

/-- `credentials.Init`: run the provider loop, then fail with
`ErrNoCredentials` when the key ID or the secret key is still empty. -/
def credInit (providers : List (credentials → credentials)) (c : credentials) :
    Except SigError credentials :=
  let c2 := credInitLoop providers c
  if c2.KeyID = "" ∨ c2.SecretKey = "" then .error .noCredentials else .ok c2

/-- First non-empty environment value among an alias list, the way the
specification words per-field resolution ("first non-empty wins"). -/
def firstNonEmpty (env : String → String) : List String → String
  | [] => ""
  | v :: vs => if env v ≠ "" then env v else firstNonEmpty env vs

/-! ### Time (`time.Parse` with the `20060102T150405Z` layout) -/

/-- A parsed wall-clock time (UTC). -/
structure GoTime where
  year : Nat
  month : Nat
  day : Nat
  hour : Nat
  minute : Nat
  second : Nat
deriving DecidableEq

def digitVal (c : Char) : Option Nat :=
  if '0' ≤ c ∧ c ≤ '9' then some (c.toNat - 48) else none

def twoDigits (a b : Char) : Option Nat := do
  let x ← digitVal a
  let y ← digitVal b
  pure (10 * x + y)

/-- Day count of a month, with the Gregorian leap rule (`time.daysIn`). -/
def daysInMonth (year month : Nat) : Nat :=
  if month = 2 then
    if year % 4 = 0 ∧ (year % 100 ≠ 0 ∨ year % 400 = 0) then 29 else 28
  else if month = 4 ∨ month = 6 ∨ month = 9 ∨ month = 11 then 30
  else 31

/-- `time.Parse("20060102T150405Z", s)`: fixed-width digit fields, literal
`T` and `Z`, and the range checks Go performs on month, day, hour, minute
and second. -/
def parseAmzTime (s : String) : Option GoTime :=
  match s.toList with
  | [y1, y2, y3, y4, m1, m2, d1, d2, t, h1, h2, mi1, mi2, s1, s2, z] =>
    if t = 'T' ∧ z = 'Z' then do
      let yh ← twoDigits y1 y2
      let yl ← twoDigits y3 y4
      let mo ← twoDigits m1 m2
      let d ← twoDigits d1 d2
      let h ← twoDigits h1 h2
      let mi ← twoDigits mi1 mi2
      let sec ← twoDigits s1 s2
      let y := 100 * yh + yl
      if 1 ≤ mo ∧ mo ≤ 12 ∧ 1 ≤ d ∧ d ≤ daysInMonth y mo ∧
          h ≤ 23 ∧ mi ≤ 59 ∧ sec ≤ 59 then
        pure ⟨y, mo, d, h, mi, sec⟩
      else none
    else none
  | _ => none

def pad2 (n : Nat) : String := if n < 10 then "0" ++ toString n else toString n

def pad4 (n : Nat) : String :=
  if n < 10 then "000" ++ toString n
  else if n < 100 then "00" ++ toString n
  else if n < 1000 then "0" ++ toString n
  else toString n

/-- `t.Format("20060102T150405Z")`. -/
def formatAmzTime (t : GoTime) : String :=
  pad4 t.year ++ pad2 t.month ++ pad2 t.day ++ "T" ++
    pad2 t.hour ++ pad2 t.minute ++ pad2 t.second ++ "Z"

/-! ### HTTP headers (`http.Header` with canonical-cased keys) -/

/-- Header map: association list from canonical-cased names to value
lists. -/
abbrev Headers := List (String × List String)

/-- `http.Header.Get`: first value of the entry, `""` when absent. -/
def headerGet (h : Headers) (k : String) : String :=
  match h with
  | [] => ""
  | (k2, vs) :: rest =>
    if k2 = k then (match vs with | v :: _ => v | [] => "") else headerGet rest k

/-- `http.Header.Set`: replace the entry with a single value, appending a
new entry when the name is absent. -/
def headerSet (h : Headers) (k v : String) : Headers :=
  if h.any (fun p => p.1 = k) then
    h.map (fun p => if p.1 = k then (k, [v]) else p)
  else h ++ [(k, [v])]

def DateHeader : String := "X-Amz-Date"

def PayloadHashHeader : String := "X-Amz-Content-Sha256"

def securityToken : String := "X-Amz-Security-Token"

/-! ### Request bodies -/

/-- `http.Request.Body` states the signer distinguishes: absent
(`nil`/`http.NoBody`), an `aws.Payload` (read+seek+close) with its byte
content and current offset, a one-shot stream, and the in-memory buffer a
stream is replaced with after hashing (`ioutil.NopCloser(bytes.Buffer)`,
which is not a seeker). -/
inductive Body where
  | nilBody
  | payload (data : Bytes) (pos : Nat)
  | stream (data : Bytes)
  | buffered (data : Bytes)
deriving DecidableEq

/-- The hex SHA-256 payload hash computable from a request body in its
current state (what reading the body from its current position yields). -/
def payloadHashOf (sha : Bytes → Bytes) : Body → String
  | .nilBody => hexBytes (sha [])
  | .payload data pos => hexBytes (sha (data.drop pos))
  | .stream data => hexBytes (sha data)
  | .buffered data => hexBytes (sha data)

/-! ### URL and request -/

/-- The parts of `url.URL` the signer reads. `escapedPath` stands for
`u.EscapedPath()` (the path part of `u.RequestURI()`; opaque URLs are out
of scope), `rawQuery` for `u.RawQuery` as bytes. -/
structure URLm where
  host : String
  escapedPath : String
  rawQuery : Bytes
deriving DecidableEq

/-- The parts of `http.Request` the signer reads and mutates. -/
structure Request where
  method : String
  url : URLm
  host : String
  header : Headers
  body : Body
deriving DecidableEq

/-! ### Canonicalization -/

/-- Byte-order `≤` on strings (Go `sort.Strings` comparison), via the
character codes. -/
def strLe (a b : String) : Prop := lexRel (strBytes a) (strBytes b)

instance : DecidableRel strLe := fun a b => by unfold strLe lexRel; infer_instance

/-- `sort.Strings`. -/
def sortStringsGo (l : List String) : List String := List.insertionSort strLe l

/-- Go `unicode.IsSpace` restricted to the ASCII range handled here. -/
def goIsSpace (c : Char) : Bool :=
  c = ' ' || c = '\t' || c = '\n' || c = '\x0b' || c = '\x0c' || c = '\r'

/-- Split a character list at every character satisfying the predicate,
dropping the separators and keeping empty segments (the behaviour of both
`strings.Split` per separator character and `String.split`). -/
def splitByChar (p : Char → Bool) : List Char → List (List Char)
  | [] => [[]]
  | c :: rest =>
    if p c then [] :: splitByChar p rest
    else
      match splitByChar p rest with
      | [] => [[c]]
      | s :: ss => (c :: s) :: ss

/-- `strings.ToLower` on the ASCII range. -/
def lowerStr (s : String) : String := String.mk (s.toList.map Char.toLower)

/-- The `trim` closure of `aws.canonicalHeaders`: split into fields on
white space (`strings.Fields`) and re-join with single spaces. -/
def trimGo (s : String) : String :=
  " ".intercalate
    (((splitByChar goIsSpace s.toList).filter (fun l => !l.isEmpty)).map
      (fun l => String.mk l))

/-- `aws.canonicalHeaders`: synthetic lower-cased `host` line, lower-cased
names with comma-joined trimmed values, both lists sorted; returns the
canonical header block (trailing newline included) and the semicolon-joined
signed header names. -/
def canonicalHeaders (req : Request) : String × String :=
  let host := if req.host = "" then req.url.host else req.host
  let entries := req.header.map (fun p =>
    (lowerStr p.1 ++ ":" ++ ",".intercalate (p.2.map trimGo), lowerStr p.1))
  let c := ("host:" ++ lowerStr host) :: entries.map (fun e => e.1)
  let s := "host" :: entries.map (fun e => e.2)
  ("\n".intercalate (sortStringsGo c) ++ "\n", ";".intercalate (sortStringsGo s))

/-- Go `path.Clean`. -/
def pathClean (p : String) : String :=
  if p = "" then "." else
  let cs := p.toList
  let rooted := match cs with | c :: _ => c == '/' | [] => false
  let comps := (splitByChar (fun c => c = '/') cs).filter
    (fun c => !c.isEmpty && c ≠ ['.'])
  let out := comps.foldl (fun acc c =>
      if c = ['.', '.'] then
        match acc with
        | [] => if rooted then [] else [['.', '.']]
        | a :: rest => if a = ['.', '.'] then c :: a :: rest else rest
      else c :: acc) ([] : List (List Char))
  let segs := out.reverse
  if segs.isEmpty then (if rooted then "/" else ".")
  else (if rooted then "/" else "") ++ "/".intercalate (segs.map (fun l => String.mk l))

/-- `aws.canonicalURI`: the request path (query stripped; `/` when the
path is empty, as in `RequestURI`), cleaned, with a trailing slash of the
original preserved. -/
def canonicalURI (u : URLm) : String :=
  let uri := if u.escapedPath = "" then "/" else u.escapedPath
  let slash := match uri.toList.getLast? with | some c => c == '/' | none => false
  let cleaned := pathClean uri
  let cleanedSlash := match cleaned.toList.getLast? with | some c => c == '/' | none => false
  if !cleanedSlash && slash then cleaned ++ "/" else cleaned

/-! ### Payload hashing and date handling -/

/-- SHA-256 of the empty string, the constant `aws.nilSum`. -/
def nilSum : String := "e3b0c44298fc1c149afbf4c8996fb92427ae41e4649b934ca495991b7852b855"

/-- `aws.digestBody`: absent bodies yield the fixed empty hash; a
`Payload` is hashed from its current offset and then `Seek(0, 0)`
rewinds it to the beginning; any other body is read to the end through a
tee into a buffer that replaces it. Returns the hex hash and the updated
request. (Read errors of real streams are outside the model.) -/
def digestBody (sha : Bytes → Bytes) (req : Request) : String × Request :=
  match req.body with
  | .nilBody => (nilSum, req)
  | .payload data pos => (hexBytes (sha (data.drop pos)), { req with body := .payload data 0 })
  | .stream data => (hexBytes (sha data), { req with body := .buffered data })
  | .buffered data => (hexBytes (sha data), { req with body := .buffered data })

/-- `aws.ensureDate`: parse a present `X-Amz-Date` with the signing
layout, else parse a present `Date` with `http.ParseTime` (modelled by
the explicit `parseHttpDate` argument), else stamp `X-Amz-Date` with the
current time. -/
def ensureDate (parseHttpDate : String → Option GoTime) (now : GoTime) (h : Headers) :
    Except SigError (GoTime × Headers) :=
  let text := headerGet h DateHeader
  if text ≠ "" then
    match parseAmzTime text with
    | some t => .ok (t, h)
    | none => .error .dateParse
  else
    let text2 := headerGet h "Date"
    if text2 ≠ "" then
      match parseHttpDate text2 with
      | some t => .ok (t, h)
      | none => .error .dateParse
    else
      .ok (now, headerSet h DateHeader (formatAmzTime now))

/-! ### The signer (`Session.sign`) -/

/-- `Session.sign`: hash the payload unless a hash header is pre-set,
ensure a date, add the security token header when the session carries a
token, build the canonical request, the string to sign and the signature,
and set the `Authorization` header. Returns the canonical request and the
string to sign together with the updated request. -/
def sign (sha : Bytes → Bytes) (parseHttpDate : String → Option GoTime) (now : GoTime)
    (s : Session) (req : Request) : Except SigError (String × String) × Request :=
  let bd0 := headerGet req.header PayloadHashHeader
  let dig := if bd0 = "" then digestBody sha req else (bd0, req)
  let bodyDigest := dig.1
  let req1 := dig.2
  match ensureDate parseHttpDate now req1.header with
  | .error e => (.error e, req1)
  | .ok (reqTime, h2) =>
    let req2 := { req1 with header := h2 }
    let req3 :=
      if s.token ≠ "" then { req2 with header := headerSet req2.header securityToken s.token }
      else req2
    let ch := canonicalHeaders req3
    let canonHeaders := ch.1
    let signedHeaders := ch.2
    let creq := req3.method ++ "\n" ++ canonicalURI req3.url ++ "\n" ++
      bytesStr (canonicalQueryString req3.url.rawQuery) ++ "\n" ++
      canonHeaders ++ "\n" ++ signedHeaders ++ "\n" ++ bodyDigest
    let sts := "AWS4-HMAC-SHA256" ++ "\n" ++ formatAmzTime reqTime ++ "\n" ++
      "/".intercalate (s.scope.drop 1) ++ "\n" ++ hexBytes (sha (strBytes creq))
    let auth := "AWS4-HMAC-SHA256" ++ " Credential=" ++ "/".intercalate s.scope ++
      ", SignedHeaders=" ++ signedHeaders ++
      ", Signature=" ++ hexBytes (hmacSum sha s.key (strBytes sts))
    (.ok (creq, sts), { req3 with header := headerSet req3.header "Authorization" auth })

/-! ### Named views of the intermediate values of `sign` (used to state
and prove facts about it; each is definitionally the corresponding
let-bound value inside `sign`) -/

/-- The digest step of `sign`: the pre-set hash header wins, otherwise
`digestBody` runs. -/
def signDig (sha : Bytes → Bytes) (req : Request) : String × Request :=
  if headerGet req.header PayloadHashHeader = "" then digestBody sha req
  else (headerGet req.header PayloadHashHeader, req)

/-- The request state `sign` canonicalizes: post-digest body, post-date
headers `h2`, and the security-token header when the session has one. -/
def signReq3 (sha : Bytes → Bytes) (s : Session) (req : Request) (h2 : Headers) : Request :=
  if s.token ≠ "" then
    { (signDig sha req).2 with header := headerSet h2 securityToken s.token }
  else { (signDig sha req).2 with header := h2 }

/-- The canonical request `sign` hashes. -/
def signCreq (sha : Bytes → Bytes) (s : Session) (req : Request) (h2 : Headers) : String :=
  (signReq3 sha s req h2).method ++ "\n" ++ canonicalURI (signReq3 sha s req h2).url ++ "\n" ++
  bytesStr (canonicalQueryString (signReq3 sha s req h2).url.rawQuery) ++ "\n" ++
  (canonicalHeaders (signReq3 sha s req h2)).1 ++ "\n" ++
  (canonicalHeaders (signReq3 sha s req h2)).2 ++ "\n" ++ (signDig sha req).1

/-- The string to sign. -/
def signSts (sha : Bytes → Bytes) (s : Session) (t : GoTime) (creq : String) : String :=
  "AWS4-HMAC-SHA256" ++ "\n" ++ formatAmzTime t ++ "\n" ++
  "/".intercalate (s.scope.drop 1) ++ "\n" ++ hexBytes (sha (strBytes creq))

/-- The Authorization header value. -/
def signAuth (sha : Bytes → Bytes) (s : Session) (sh sts : String) : String :=
  "AWS4-HMAC-SHA256" ++ " Credential=" ++ "/".intercalate s.scope ++
  ", SignedHeaders=" ++ sh ++ ", Signature=" ++ hexBytes (hmacSum sha s.key (strBytes sts))

/-! ### Concrete instances used by witnesses and counterexamples -/

/-- A concrete stand-in hash of constant output length 32. -/
def shaW : Bytes → Bytes := fun _ => List.replicate 32 0

/-- A concrete stand-in hash with empty output. -/
def shaZ : Bytes → Bytes := fun _ => []

def phdZ : String → Option GoTime := fun _ => none

def nowZ : GoTime := ⟨2015, 8, 30, 12, 36, 0⟩

def envW : String → String := fun _ => ""

def envC : String → String := fun v => if v = "AWS_SECRET_ACCESS_KEY" then "sk" else ""

def cW : Config := ⟨"AKID", "SECRET", ""⟩

/-- The session `NewSession shaW envW cW "r" "sv" "20150830"` produces. -/
def sessW : Session :=
  ⟨"", ["AKID", "20150830", "r", "sv", "aws4_request"], List.replicate 32 0⟩

/-- The session `NewSession shaZ envW cW "r" "sv" "20150830"` produces. -/
def sessZ : Session := ⟨"", ["AKID", "20150830", "r", "sv", "aws4_request"], []⟩

def reqZ : Request :=
  { method := "GET",
    url := { host := "example.com", escapedPath := "/", rawQuery := [] },
    host := "example.com",
    header := [("X-Amz-Date", ["20150830T123600Z"])],
    body := .nilBody }

/-- A request with a malformed `X-Amz-Date` and a seekable body at
offset 1. -/
def reqBadDate : Request :=
  { reqZ with header := [("X-Amz-Date", ["bogus"])], body := .payload [97, 98] 1 }

/-- A request with a valid date and a seekable body at offset 1. -/
def reqSeek1 : Request := { reqZ with body := .payload [97, 98] 1 }

/-- The identity as a stand-in hash (injective, so hash inequality
reflects content inequality). -/
def idSha : Bytes → Bytes := fun l => l

deriving instance DecidableEq for Except

/-! ### envrc parsing (`envrc.go`) -/

/-- Which buffer `envrc.Parse` is currently writing to. -/
inductive Target where
  | common
  | enter
  | exit
deriving DecidableEq

/-- Accumulator for `scanLines`-style splitting. -/
def splitLinesAux : List Char → List Char → List (List Char)
  | [], acc => if acc.isEmpty then [] else [acc.reverse]
  | c :: rest, acc =>
    if c = '\n' then (acc.reverse ++ ['\n']) :: splitLinesAux rest []
    else splitLinesAux rest (c :: acc)

/-- `envrc.scanLines`: split into lines, each keeping its trailing
newline; a final unterminated line is kept; empty input has no lines. -/
def scanLinesGo (s : List Char) : List (List Char) := splitLinesAux s []

/-- `strings.HasPrefix(line, "enter:")`. -/
def lineIsEnter (l : List Char) : Bool := "enter:".toList.isPrefixOf l

/-- `strings.HasPrefix(line, "exit:")`. -/
def lineIsExit (l : List Char) : Bool := "exit:".toList.isPrefixOf l

/-- One step of the `Parse` scan loop: a header line switches the target
and is dropped; any other line is appended to the current target buffer
(state: target, common buffer, enter buffer, exit buffer). -/
def envrcStep (st : Target × List Char × List Char × List Char) (line : List Char) :
    Target × List Char × List Char × List Char :=
  if lineIsEnter line then (Target.enter, st.2.1, st.2.2.1, st.2.2.2)
  else if lineIsExit line then (Target.exit, st.2.1, st.2.2.1, st.2.2.2)
  else
    match st.1 with
    | .common => (st.1, st.2.1 ++ line, st.2.2.1, st.2.2.2)
    | .enter => (st.1, st.2.1, st.2.2.1 ++ line, st.2.2.2)
    | .exit => (st.1, st.2.1, st.2.2.1, st.2.2.2 ++ line)

/-- `strings.TrimLeft`/`TrimRight` with cutset `"\n"`. -/
def trimNl (l : List Char) : List Char :=
  ((l.dropWhile (fun c => c == '\n')).reverse.dropWhile (fun c => c == '\n')).reverse

/-- `envrc.Parse`: scan the lines, collect the three buffers, and return
(common+enter, common+exit), each trimmed of leading and trailing
newlines. -/
def envrcParse (text : String) : String × String :=
  let st := (scanLinesGo text.toList).foldl envrcStep (Target.common, [], [], [])
  (String.mk (trimNl (st.2.1 ++ st.2.2.1)), String.mk (trimNl (st.2.1 ++ st.2.2.2)))

/-- Spec-side description: the lines collected for section `tgt` when
scanning `ls` with current section `cur` — a header line switches the
current section and is itself excluded from every section. -/
def linesOfSection (tgt : Target) : List (List Char) → Target → List (List Char)
  | [], _ => []
  | l :: ls, cur =>
    if lineIsEnter l then linesOfSection tgt ls .enter
    else if lineIsExit l then linesOfSection tgt ls .exit
    else (if cur = tgt then [l] else []) ++ linesOfSection tgt ls cur

/-- The target selected after scanning `ls` starting from `cur`. -/
def finalTarget : List (List Char) → Target → Target
  | [], cur => cur
  | l :: ls, cur =>
    if lineIsEnter l then finalTarget ls .enter
    else if lineIsExit l then finalTarget ls .exit
    else finalTarget ls cur

/-- A line that is neither an `enter:` nor an `exit:` header. -/
def notHeader (l : List Char) : Bool := !(lineIsEnter l || lineIsExit l)

/-! ### TOTP (`cmd/mfa/main.go`) -/

/-- Value of one standard base32 alphabet character (`A`–`Z`, `2`–`7`). -/
def base32CharVal (c : Char) : Option Nat :=
  if 'A' ≤ c ∧ c ≤ 'Z' then some (c.toNat - 65)
  else if '2' ≤ c ∧ c ≤ '7' then some (c.toNat - 50 + 26)
  else none

/-- Decode a run of data characters; any character outside the alphabet
is a `CorruptInputError`. -/
def decodeB32Chars : List Char → Option (List Nat)
  | [] => some []
  | c :: rest =>
    match base32CharVal c, decodeB32Chars rest with
    | some v, some vs => some (v :: vs)
    | _, _ => none

/-- Output byte count for a block with `dlen` data characters; the data
lengths 0, 1, 3 and 6 are invalid padding layouts. -/
def b32NumBytes : Nat → Option Nat
  | 2 => some 1
  | 4 => some 2
  | 5 => some 3
  | 7 => some 4
  | 8 => some 5
  | _ => none

/-- Assemble the output bytes of one block from its data character
values (big-endian 5-bit groups, surplus bits dropped). -/
def b32BlockBytes (ds : List Nat) : Option (List Nat) :=
  match b32NumBytes ds.length with
  | none => none
  | some n =>
    let v := ds.foldl (fun a d => a * 32 + d) 0
    let full := v * 2 ^ (40 - 5 * ds.length)
    some ((List.range n).map (fun k => full / 2 ^ (32 - 8 * k) % 256))

/-- Decode one 8-character block: data characters, then only `=`
padding; reports whether padding was seen (which must end the input). -/
def base32DecodeBlock (blk : List Char) : Option (List Nat × Bool) :=
  let dataChars := blk.takeWhile (fun c => c != '=')
  let padChars := blk.dropWhile (fun c => c != '=')
  if padChars.any (fun c => c != '=') then none
  else
    match decodeB32Chars dataChars with
    | none => none
    | some ds =>
      match b32BlockBytes ds with
      | none => none
      | some bs => some (bs, !padChars.isEmpty)

/-- Decode a sequence of 8-character blocks; a trailing partial block is
an error, and padding may only appear in the final block. -/
def base32Blocks : List Char → Option (List Nat)
  | [] => some []
  | c0 :: c1 :: c2 :: c3 :: c4 :: c5 :: c6 :: c7 :: rest =>
    match base32DecodeBlock [c0, c1, c2, c3, c4, c5, c6, c7] with
    | none => none
    | some (bs, isEnd) =>
      if isEnd && !rest.isEmpty then none
      else (base32Blocks rest).map (fun more => bs ++ more)
  | _ => none

/-- `base32.StdEncoding.DecodeString`: newlines are stripped, then the
input is decoded in 8-character blocks. -/
def base32Decode (s : String) : Option (List Nat) :=
  base32Blocks (s.toList.filter (fun c => c != '\n' && c != '\r'))

/-- `strings.ToUpper` on the ASCII range. -/
def upperStr (s : String) : String := String.mk (s.toList.map Char.toUpper)

/-- `binary.Write(h, binary.BigEndian, c)` for an `int64`: the 8
big-endian bytes of the two's-complement value. -/
def int64BE (c : Int) : List Nat :=
  let u := (c % (2 ^ 64 : Int)).toNat
  (List.range 8).map (fun k => u / 2 ^ (56 - 8 * k) % 256)

/-- `mfa.totp`: base32-decode the upper-cased secret (returning `-1` and
an error on failure), HMAC-SHA1 the big-endian challenge, dynamically
truncate (offset from the low nibble of byte 19, 31-bit big-endian word)
and reduce modulo 10^6. The `Bool` component models whether an error is
returned. -/
def totp (sha1 : Bytes → Bytes) (secret : String) (c : Int) : Int × Bool :=
  match base32Decode (upperStr secret) with
  | none => (-1, true)
  | some k =>
    let p := hmacSum sha1 k (int64BE c)
    let i := (p.getD 19 0) % 16
    let n := ((p.getD i 0) * 2 ^ 24 + (p.getD (i + 1) 0) * 2 ^ 16 +
      (p.getD (i + 2) 0) * 2 ^ 8 + p.getD (i + 3) 0) % 2 ^ 31
    (Int.ofNat (n % 1000000), false)

/-- A concrete stand-in SHA-1 of constant output length 20. -/
def sha1W : Bytes → Bytes := fun _ => List.range 20

/-! ### Escaping lemmas -/

theorem plusToPct20_append (a b : Bytes) :
    plusToPct20 (a ++ b) = plusToPct20 a ++ plusToPct20 b := by
  simp [plusToPct20]

theorem upperHexDigit_ne_43 (n : Nat) : upperHexDigit n ≠ 43 := by
  unfold upperHexDigit
  split <;> omega

theorem escByte_eq_spec (b : Nat) : plusToPct20 (queryEscapeByte b) = escByteSpec b := by
  unfold queryEscapeByte escByteSpec shouldEscapeQuery
  by_cases h32 : b = 32
  · simp [h32, plusToPct20]
  · rw [if_neg h32, if_neg h32]
    by_cases hu : (isAlphaNum b || b == 45 || b == 95 || b == 46 || b == 126) = true
    · have hb43 : b ≠ 43 := by
        intro h; subst h; simp [isAlphaNum] at hu
      simp [hu, plusToPct20, hb43]
    · have hu2 : (!(isAlphaNum b || b == 45 || b == 95 || b == 46 || b == 126)) = true := by
        simp at hu ⊢; tauto
      simp only [hu2, if_true, eq_false_of_ne_true hu, if_false]
      simp [plusToPct20, upperHexDigit_ne_43 (b / 16), upperHexDigit_ne_43 (b % 16)]

/-- The `escape` closure of `canonicalQueryString` is exactly the
escaping rule the specification describes. -/
theorem escapeAws_eq_spec (s : Bytes) : escapeAws s = escapeSpec s := by
  unfold escapeAws queryEscape escapeSpec
  induction s with
  | nil => simp [plusToPct20]
  | cons b rest ih =>
    simp only [List.flatMap_cons]
    rw [plusToPct20_append, escByte_eq_spec, ih]

theorem escapeSpec_nil : escapeSpec [] = [] := rfl

/-- The two pair renderings agree: escaping the empty value is a no-op. -/
theorem renderPair_eq_spec (p : Bytes × Bytes) : renderPair p = renderPairSpec p := by
  unfold renderPair renderPairSpec
  by_cases h : p.2 = []
  · simp [h, escapeAws_eq_spec, escapeSpec_nil]
  · simp [h, escapeAws_eq_spec]

/-! ### Unescape/escape round trip -/

theorem unhexDigit_upperHexDigit : ∀ n, n < 16 → unhexDigit (upperHexDigit n) = some n := by
  decide

theorem unhexDigit_lt (b h : Nat) (hb : unhexDigit b = some h) : h < 16 := by
  unfold unhexDigit at hb
  split at hb
  · simp at hb; omega
  · split at hb
    · simp at hb; omega
    · split at hb
      · simp at hb; omega
      · simp at hb

theorem mem_escByteSpec_ne (b x : Nat) (hx : x ∈ escByteSpec b) : x ≠ 38 ∧ x ≠ 61 := by
  unfold escByteSpec at hx
  split at hx
  · simp at hx
    omega
  · next hres =>
    split at hx
    · next hun =>
      simp at hx
      subst hx
      constructor <;> intro h <;> subst h <;> simp [isAlphaNum] at hun
    · simp at hx
      rcases hx with h | h | h
      · omega
      · subst h; unfold upperHexDigit; split <;> omega
      · subst h; unfold upperHexDigit; split <;> omega

theorem mem_escapeSpec_ne (s : Bytes) (x : Nat) (hx : x ∈ escapeSpec s) :
    x ≠ 38 ∧ x ≠ 61 := by
  unfold escapeSpec at hx
  rcases List.mem_flatMap.mp hx with ⟨b, _, hb⟩
  exact mem_escByteSpec_ne b x hb

theorem queryUnescape_cons37 (a c : Nat) (rest2 : Bytes) :
    queryUnescape (37 :: a :: c :: rest2) =
      match unhexDigit a, unhexDigit c with
      | some ha, some hc => (queryUnescape rest2).map (fun r => (16 * ha + hc) :: r)
      | _, _ => none := rfl

theorem queryUnescape_37_nil : queryUnescape [37] = none := rfl

theorem queryUnescape_37_one (a : Nat) : queryUnescape [37, a] = none := rfl

theorem queryUnescape_cons43 (rest : Bytes) :
    queryUnescape (43 :: rest) = (queryUnescape rest).map (fun r => 32 :: r) := by
  conv_lhs => unfold queryUnescape
  norm_num

theorem queryUnescape_cons_other (b : Nat) (rest : Bytes) (h37 : b ≠ 37) (h43 : b ≠ 43) :
    queryUnescape (b :: rest) = (queryUnescape rest).map (fun r => b :: r) := by
  conv_lhs => unfold queryUnescape
  rw [if_neg h37, if_neg h43]

theorem queryUnescape_escByteSpec (b : Nat) (hb : b < 256) (rest : Bytes) :
    queryUnescape (escByteSpec b ++ rest) = (queryUnescape rest).map (fun r => b :: r) := by
  by_cases h32 : b = 32
  · subst h32
    rw [show escByteSpec 32 = [37, 50, 48] from rfl]
    show queryUnescape (37 :: 50 :: 48 :: rest) = _
    rw [queryUnescape_cons37]
    simp [unhexDigit]
  · by_cases hun : (isAlphaNum b || b == 45 || b == 95 || b == 46 || b == 126) = true
    · have hb37 : b ≠ 37 := by intro hh; subst hh; simp [isAlphaNum] at hun
      have hb43 : b ≠ 43 := by intro hh; subst hh; simp [isAlphaNum] at hun
      rw [show escByteSpec b = [b] from by unfold escByteSpec; rw [if_neg h32, if_pos hun]]
      exact queryUnescape_cons_other b rest hb37 hb43
    · have h1 : b / 16 < 16 := by omega
      have h2 : b % 16 < 16 := by omega
      have hr : 16 * (b / 16) + b % 16 = b := by omega
      rw [show escByteSpec b = [37, upperHexDigit (b / 16), upperHexDigit (b % 16)] from by
            unfold escByteSpec; rw [if_neg h32, if_neg hun]]
      show queryUnescape (37 :: upperHexDigit (b / 16) :: upperHexDigit (b % 16) :: rest) = _
      rw [queryUnescape_cons37, unhexDigit_upperHexDigit _ h1, unhexDigit_upperHexDigit _ h2]
      simp [hr]

theorem queryUnescape_escapeSpec_append (s : Bytes) (hs : ∀ b ∈ s, b < 256) (rest : Bytes) :
    queryUnescape (escapeSpec s ++ rest) = (queryUnescape rest).map (fun r => s ++ r) := by
  induction s with
  | nil =>
    simp only [escapeSpec, List.flatMap_nil, List.nil_append]
    cases queryUnescape rest <;> simp
  | cons b s ih =>
    have hb : b < 256 := hs b (by simp)
    have hs2 : ∀ x ∈ s, x < 256 := fun x hx => hs x (by simp [hx])
    rw [show escapeSpec (b :: s) = escByteSpec b ++ escapeSpec s from by
          simp [escapeSpec]]
    rw [List.append_assoc, queryUnescape_escByteSpec b hb, ih hs2]
    cases queryUnescape rest <;> simp

theorem queryUnescape_escapeSpec (s : Bytes) (hs : ∀ b ∈ s, b < 256) :
    queryUnescape (escapeSpec s) = some s := by
  have h := queryUnescape_escapeSpec_append s hs []
  simp only [List.append_nil] at h
  rw [h]
  simp [queryUnescape]

theorem cutEq_append (k v : Bytes) (hk : (61:Nat) ∉ k) : cutEq (k ++ 61 :: v) = (k, v) := by
  induction k with
  | nil => simp [cutEq]
  | cons b k ih =>
    have hb : b ≠ 61 := by intro h; exact hk (by simp [h])
    have hk2 : (61:Nat) ∉ k := fun h => hk (by simp [h])
    simp [cutEq, hb, ih hk2]

/-! ### Split/join round trip -/

theorem splitSep_no_sep (sep : Nat) (s : Bytes) (h : sep ∉ s) : splitSep sep s = [s] := by
  induction s with
  | nil => rfl
  | cons b s ih =>
    have hb : ¬ b = sep := by intro hh; exact h (by simp [hh])
    have ih2 := ih (fun hh => h (by simp [hh]))
    simp [splitSep, hb, ih2]

theorem splitSep_append (sep : Nat) (x t : Bytes) (hx : sep ∉ x) :
    splitSep sep (x ++ sep :: t) = x :: splitSep sep t := by
  induction x with
  | nil => simp [splitSep]
  | cons b x ih =>
    have hb : ¬ b = sep := by intro hh; exact hx (by simp [hh])
    have ih2 := ih (fun hh => hx (by simp [hh]))
    simp [splitSep, hb, ih2]

theorem splitSep_joinSep (sep : Nat) (rs : List Bytes) (hne : rs ≠ [])
    (h : ∀ r ∈ rs, sep ∉ r) : splitSep sep (joinSep sep rs) = rs := by
  induction rs with
  | nil => exact absurd rfl hne
  | cons x rs ih =>
    cases rs with
    | nil => exact splitSep_no_sep sep x (h x (by simp))
    | cons y rs2 =>
      rw [show joinSep sep (x :: y :: rs2) = x ++ sep :: joinSep sep (y :: rs2) from rfl]
      rw [splitSep_append sep x _ (h x (by simp))]
      rw [ih (by simp) (fun r hr => h r (by simp [hr]))]

/-! ### Byte bounds through parsing -/

theorem mem_of_mem_splitSep (sep : Nat) (raw : Bytes) :
    ∀ s ∈ splitSep sep raw, ∀ x ∈ s, x ∈ raw := by
  induction raw with
  | nil =>
    intro s hs x hx
    simp [splitSep] at hs
    subst hs
    simp at hx
  | cons b raw ih =>
    intro s hs x hx
    by_cases hb : b = sep
    · rw [show splitSep sep (b :: raw) = [] :: splitSep sep raw from by simp [splitSep, hb]] at hs
      rcases List.mem_cons.mp hs with h | h
      · subst h; simp at hx
      · exact List.mem_cons_of_mem _ (ih s h x hx)
    · cases hsp : splitSep sep raw with
      | nil =>
        rw [show splitSep sep (b :: raw) = [[b]] from by simp [splitSep, hb, hsp]] at hs
        simp at hs
        subst hs
        simp at hx
        simp [hx]
      | cons s0 ss =>
        rw [show splitSep sep (b :: raw) = (b :: s0) :: ss from by simp [splitSep, hb, hsp]] at hs
        rcases List.mem_cons.mp hs with h | h
        · subst h
          rcases List.mem_cons.mp hx with h2 | h2
          · simp [h2]
          · exact List.mem_cons_of_mem _ (ih s0 (by rw [hsp]; simp) x h2)
        · exact List.mem_cons_of_mem _ (ih s (by rw [hsp]; simp [h]) x hx)

theorem cutEq_mem (s : Bytes) :
    (∀ x ∈ (cutEq s).1, x ∈ s) ∧ (∀ x ∈ (cutEq s).2, x ∈ s) := by
  induction s with
  | nil => simp [cutEq]
  | cons b s ih =>
    by_cases hb : b = 61
    · subst hb
      simp [cutEq]
      exact fun x hx => Or.inr hx
    · rw [show cutEq (b :: s) = (b :: (cutEq s).1, (cutEq s).2) from by simp [cutEq, hb]]
      constructor
      · intro x hx
        rcases List.mem_cons.mp hx with h | h
        · simp [h]
        · exact List.mem_cons_of_mem _ (ih.1 x h)
      · intro x hx
        exact List.mem_cons_of_mem _ (ih.2 x hx)

theorem queryUnescape_bound_fuel : ∀ (n : Nat) (s : Bytes), s.length ≤ n →
    ∀ (r : Bytes), queryUnescape s = some r →
    (∀ b ∈ s, b < 256) → ∀ b ∈ r, b < 256 := by
  intro n
  induction n with
  | zero =>
    intro s hs r hr _
    have : s = [] := List.length_eq_zero.mp (Nat.le_zero.mp hs)
    subst this
    simp only [queryUnescape] at hr
    cases hr
    simp
  | succ n ih =>
    intro s hs r hr hb
    cases s with
    | nil =>
      simp only [queryUnescape] at hr
      cases hr
      simp
    | cons b rest =>
      by_cases h37 : b = 37
      · subst h37
        cases rest with
        | nil => rw [queryUnescape_37_nil] at hr; cases hr
        | cons a rest1 =>
          cases rest1 with
          | nil => rw [queryUnescape_37_one] at hr; cases hr
          | cons c rest2 =>
            rw [queryUnescape_cons37] at hr
            split at hr
            · next va vc ha hc =>
              cases hq : queryUnescape rest2 with
              | none => rw [hq] at hr; cases hr
              | some r2 =>
                rw [hq] at hr
                simp at hr
                subst hr
                intro x hx
                rcases List.mem_cons.mp hx with h | h
                · have h1 := unhexDigit_lt a _ ha
                  have h2 := unhexDigit_lt c _ hc
                  omega
                · have hlen : rest2.length ≤ n := by
                    simp at hs; omega
                  exact ih rest2 hlen r2 hq (fun y hy => hb y (by simp [hy])) x h
            · cases hr
      · by_cases h43 : b = 43
        · subst h43
          rw [queryUnescape_cons43] at hr
          cases hq : queryUnescape rest with
          | none => rw [hq] at hr; cases hr
          | some r2 =>
            rw [hq] at hr
            simp at hr
            subst hr
            intro x hx
            rcases List.mem_cons.mp hx with h | h
            · omega
            · have hlen : rest.length ≤ n := by simp at hs; omega
              exact ih rest hlen r2 hq (fun y hy => hb y (by simp [hy])) x h
        · rw [queryUnescape_cons_other b rest h37 h43] at hr
          cases hq : queryUnescape rest with
          | none => rw [hq] at hr; cases hr
          | some r2 =>
            rw [hq] at hr
            simp at hr
            subst hr
            intro x hx
            rcases List.mem_cons.mp hx with h | h
            · subst h; exact hb x (by simp)
            · have hlen : rest.length ≤ n := by simp at hs; omega
              exact ih rest hlen r2 hq (fun y hy => hb y (by simp [hy])) x h

theorem queryUnescape_bound (s : Bytes) (r : Bytes) (hr : queryUnescape s = some r)
    (hs : ∀ b ∈ s, b < 256) : ∀ b ∈ r, b < 256 :=
  queryUnescape_bound_fuel s.length s (le_refl _) r hr hs

theorem parseQuery_bound (raw : Bytes) (hraw : ∀ b ∈ raw, b < 256) :
    ∀ p ∈ parseQuery raw, (∀ b ∈ p.1, b < 256) ∧ (∀ b ∈ p.2, b < 256) := by
  intro p hp
  unfold parseQuery at hp
  rcases List.mem_filterMap.mp hp with ⟨seg, hseg, hpp⟩
  have hsegb : ∀ x ∈ seg, x < 256 :=
    fun x hx => hraw x (mem_of_mem_splitSep 38 raw seg hseg x hx)
  unfold parsePair at hpp
  split at hpp
  · exact absurd hpp (by simp)
  · cases hk : queryUnescape (cutEq seg).1 with
    | none => rw [hk] at hpp; simp at hpp
    | some k =>
      cases hv : queryUnescape (cutEq seg).2 with
      | none => rw [hk, hv] at hpp; simp at hpp
      | some v =>
        rw [hk, hv] at hpp
        simp at hpp
        subst hpp
        constructor
        · exact queryUnescape_bound _ _ hk (fun x hx => hsegb x ((cutEq_mem seg).1 x hx))
        · exact queryUnescape_bound _ _ hv (fun x hx => hsegb x ((cutEq_mem seg).2 x hx))

/-! ### Round trip of a rendered pair -/

theorem parsePair_renderPairSpec (p : Bytes × Bytes)
    (h1 : ∀ b ∈ p.1, b < 256) (h2 : ∀ b ∈ p.2, b < 256) :
    parsePair (renderPairSpec p) = some p := by
  unfold parsePair renderPairSpec
  have hne : escapeSpec p.1 ++ 61 :: escapeSpec p.2 ≠ [] := by simp
  rw [if_neg hne]
  have hnotin : (61:Nat) ∉ escapeSpec p.1 := fun h => (mem_escapeSpec_ne _ _ h).2 rfl
  rw [cutEq_append _ _ hnotin]
  simp [queryUnescape_escapeSpec _ h1, queryUnescape_escapeSpec _ h2]

theorem filterMap_map_roundtrip (S : List Bytes)
    (h : ∀ r ∈ S, ∃ p, parsePair r = some p ∧ renderPair p = r) :
    (S.filterMap parsePair).map renderPair = S := by
  induction S with
  | nil => rfl
  | cons r S ih =>
    rcases h r (by simp) with ⟨p, hp, hr⟩
    rw [List.filterMap_cons, hp]
    simp only [List.map_cons]
    rw [hr, ih (fun r2 h2 => h r2 (by simp [h2]))]

/-- C4: the canonical query string percent-escapes every parameter name and
value with space as `%20` and never `+`, renders empty values as `key=`,
sorts the encoded `key=value` pairs lexicographically by the full pair
string, joins them with `&`, and is empty when the URL carries no query. -/
theorem C4_canonicalQueryString_matches_spec (raw : Bytes) :
    canonicalQueryString raw = canonicalQueryStringSpec raw ∧
      canonicalQueryString [] = [] := by
  constructor
  · unfold canonicalQueryString canonicalQueryStringSpec
    have hmap : (parseQuery raw).map renderPair = (parseQuery raw).map renderPairSpec := by
      have : renderPair = renderPairSpec := funext renderPair_eq_spec
      rw [this]
    rw [hmap]
  · rfl

/-- C8: re-canonicalizing an already-canonical query string is the
identity, for every byte-valued raw query. -/
theorem C8_canonicalQueryString_idempotent (raw : Bytes) (hraw : ∀ b ∈ raw, b < 256) :
    canonicalQueryString (canonicalQueryString raw) = canonicalQueryString raw := by
  have hL : canonicalQueryString raw =
      joinSep 38 (List.insertionSort lexRel ((parseQuery raw).map renderPair)) := rfl
  set S := List.insertionSort lexRel ((parseQuery raw).map renderPair) with hS
  have hsorted : List.Sorted lexRel S := List.sorted_insertionSort lexRel _
  have hperm : S.Perm ((parseQuery raw).map renderPair) := List.perm_insertionSort lexRel _
  have hmem : ∀ r ∈ S, ∃ p, (∀ b ∈ p.1, b < 256) ∧ (∀ b ∈ p.2, b < 256) ∧
      r = renderPairSpec p := by
    intro r hr
    have hrL : r ∈ (parseQuery raw).map renderPair := hperm.mem_iff.mp hr
    rcases List.mem_map.mp hrL with ⟨p, hp, hrp⟩
    rcases parseQuery_bound raw hraw p hp with ⟨h1, h2⟩
    exact ⟨p, h1, h2, by rw [← hrp, renderPair_eq_spec]⟩
  rw [hL]
  cases hSe : S with
  | nil => rfl
  | cons s0 S2 =>
    rw [← hSe]
    have hne : S ≠ [] := by rw [hSe]; simp
    have hno38 : ∀ r ∈ S, (38:Nat) ∉ r := by
      intro r hr hx
      rcases hmem r hr with ⟨p, _, _, hrp⟩
      rw [hrp] at hx
      unfold renderPairSpec at hx
      rcases List.mem_append.mp hx with h | h
      · exact (mem_escapeSpec_ne _ _ h).1 rfl
      · rcases List.mem_cons.mp h with h | h
        · omega
        · exact (mem_escapeSpec_ne _ _ h).1 rfl
    have hsplit : parseQuery (joinSep 38 S) = S.filterMap parsePair := by
      unfold parseQuery
      rw [splitSep_joinSep 38 S hne hno38]
    have hround : (S.filterMap parsePair).map renderPair = S := by
      apply filterMap_map_roundtrip
      intro r hr
      rcases hmem r hr with ⟨p, h1, h2, hrp⟩
      refine ⟨p, ?_, ?_⟩
      · rw [hrp]; exact parsePair_renderPairSpec p h1 h2
      · rw [renderPair_eq_spec, hrp]
    show joinSep 38 (List.insertionSort lexRel ((parseQuery (joinSep 38 S)).map renderPair)) =
      joinSep 38 S
    rw [hsplit, hround, hsorted.insertionSort_eq]

/-- Concrete evaluation witness for the idempotence theorem. -/
theorem C8_canonicalQueryString_idempotent_witness :
    canonicalQueryString (canonicalQueryString (strBytes "b=2&a=1&sp=a b&e=")) =
      canonicalQueryString (strBytes "b=2&a=1&sp=a b&e=") :=
  C8_canonicalQueryString_idempotent (strBytes "b=2&a=1&sp=a b&e=") (by decide)

/-! ### Key derivation and session construction (C1, C2) -/

/-- C1: whenever `NewSession` returns a session, the stored derived key
equals the four-stage chained HMAC reference over the resolved secret
key, date, region and service; it is 32 bytes long whenever the
underlying hash always is; and it depends on neither the key ID nor the
session token (any configuration resolving to the same secret key yields
the same derived key for the same date, region and service). -/
theorem C1_derived_key_chain (sha : Bytes → Bytes) (env : String → String) (c : Config)
    (region service date : String) (s : Session)
    (hok : NewSession sha env c region service date = .ok s) :
    s.key = refDerivedKey sha (resolvedKey env c) date region service ∧
    ((∀ x, (sha x).length = 32) → s.key.length = 32) ∧
    (∀ (env2 : String → String) (c2 : Config) (s2 : Session),
      NewSession sha env2 c2 region service date = .ok s2 →
      resolvedKey env2 c2 = resolvedKey env c → s2.key = s.key) := by
  have hkey : ∀ (env3 : String → String) (c3 : Config) (s3 : Session),
      NewSession sha env3 c3 region service date = .ok s3 →
      s3.key = refDerivedKey sha (resolvedKey env3 c3) date region service := by
    intro env3 c3 s3 h3
    simp only [NewSession] at h3
    split at h3
    · cases h3
    · cases h3
      rfl
  refine ⟨hkey env c s hok, ?_, ?_⟩
  · intro hlen
    rw [hkey env c s hok]
    simp only [refDerivedKey, hmacSum]
    exact hlen _
  · intro env2 c2 s2 h2 hsec
    rw [hkey env2 c2 s2 h2, hkey env c s hok, hsec]

/-- Concrete evaluation witness for the derived-key theorem. -/
theorem C1_derived_key_chain_witness :
    NewSession shaW envW cW "r" "sv" "20150830" = .ok sessW ∧
    sessW.key = refDerivedKey shaW (resolvedKey envW cW) "20150830" "r" "sv" ∧
    sessW.key.length = 32 := by
  have hok : NewSession shaW envW cW "r" "sv" "20150830" = .ok sessW := by decide
  have h := C1_derived_key_chain shaW envW cW "r" "sv" "20150830" sessW hok
  exact ⟨hok, h.1, h.2.1 (fun x => by simp [shaW])⟩

/-- C2: `NewSession` fails, and fails with `ErrNoCredentials`, exactly
when the resolved key ID or secret key is empty; whenever both resolve
non-empty it returns a session. -/
theorem C2_newSession_credentials (sha : Bytes → Bytes) (env : String → String) (c : Config)
    (region service date : String) :
    (NewSession sha env c region service date = .error .noCredentials ↔
      resolvedKid env c = "" ∨ resolvedKey env c = "") ∧
    (resolvedKid env c ≠ "" → resolvedKey env c ≠ "" →
      ∃ s, NewSession sha env c region service date = .ok s) := by
  unfold NewSession
  by_cases h : resolvedKid env c = "" ∨ resolvedKey env c = ""
  · rw [if_pos h]
    exact ⟨⟨(fun _ => h), (fun _ => rfl)⟩, fun h1 h2 => absurd h (by tauto)⟩
  · rw [if_neg h]
    refine ⟨⟨(fun hh => by cases hh), (fun hh => absurd hh h)⟩, fun h1 h2 => ⟨_, rfl⟩⟩

/-- Concrete evaluation witness for the credential-check theorem. -/
theorem C2_newSession_credentials_witness :
    NewSession shaW envW ⟨"", "SECRET", ""⟩ "r" "sv" "20150830" = .error .noCredentials ∧
    ∃ s, NewSession shaW envW cW "r" "sv" "20150830" = .ok s :=
  ⟨(C2_newSession_credentials shaW envW ⟨"", "SECRET", ""⟩ "r" "sv" "20150830").1.mpr
      (Or.inl (by decide)),
   (C2_newSession_credentials shaW envW cW "r" "sv" "20150830").2 (by decide) (by decide)⟩

/-! ### Credential resolution order (C5) -/

theorem maybeLoadFromEnv_of_ne : ∀ (vars : List String) (s : String) (env : String → String),
    s ≠ "" → maybeLoadFromEnv s vars env = s := by
  intro vars
  induction vars with
  | nil => intro s env h; rfl
  | cons v vs ih =>
    intro s env h
    unfold maybeLoadFromEnv
    rw [List.foldl_cons, if_neg h]
    exact ih s env h

theorem maybeLoadFromEnv_of_empty : ∀ (vars : List String) (env : String → String),
    maybeLoadFromEnv "" vars env = firstNonEmpty env vars := by
  intro vars
  induction vars with
  | nil => intro env; rfl
  | cons v vs ih =>
    intro env
    unfold maybeLoadFromEnv firstNonEmpty
    rw [List.foldl_cons, if_pos rfl]
    by_cases h : env v = ""
    · rw [if_neg (by simp [h])]
      rw [h]
      exact ih env
    · rw [if_pos h]
      exact maybeLoadFromEnv_of_ne vs (env v) env h

/-- C5 counterexample: the environment carries the secret key (per-field
alias resolution would find it) and the key ID is supplied explicitly,
yet `credentials.Init` fails with `ErrNoCredentials`, because the
provider loop only runs while both fields are empty. -/
theorem C5_counterexample :
    credInit [environGet envC] ⟨"AKID", "", ""⟩ = .error .noCredentials ∧
    firstNonEmpty envC secretKeyEnvVars = "sk" ∧
    (environGet envC ⟨"AKID", "", ""⟩).SecretKey = "sk" := by decide

/-- C5 amended: an explicitly supplied field is never overwritten, and a
still-empty field is filled from its ordered alias list (first non-empty
wins) whenever the environment provider actually runs — `Config`
resolution always runs it per field, while `credentials.Init` consults
providers, in order, only while both the key ID and the secret key are
still empty, and fails exactly when either is empty afterwards. -/
theorem C5_amended_resolution :
    (∀ (env : String → String) (c : credentials),
      (c.KeyID ≠ "" → (environGet env c).KeyID = c.KeyID) ∧
      (c.SecretKey ≠ "" → (environGet env c).SecretKey = c.SecretKey) ∧
      (c.SessionToken ≠ "" → (environGet env c).SessionToken = c.SessionToken) ∧
      (c.KeyID = "" → (environGet env c).KeyID = firstNonEmpty env accessKeyEnvVars) ∧
      (c.SecretKey = "" → (environGet env c).SecretKey = firstNonEmpty env secretKeyEnvVars) ∧
      (c.SessionToken = "" →
        (environGet env c).SessionToken = firstNonEmpty env sessionTokenEnvVars)) ∧
    (∀ (env : String → String) (c : Config),
      resolvedKid env c = (if c.kid = "" then firstNonEmpty env accessKeyEnvVars else c.kid) ∧
      resolvedKey env c = (if c.key = "" then firstNonEmpty env secretKeyEnvVars else c.key) ∧
      resolvedTok env c =
        (if c.tok = "" then firstNonEmpty env sessionTokenEnvVars else c.tok)) ∧
    (∀ (ps : List (credentials → credentials)) (c : credentials),
      ¬(c.KeyID = "" ∧ c.SecretKey = "") → credInitLoop ps c = c) ∧
    (∀ (p : credentials → credentials) (ps : List (credentials → credentials))
        (c : credentials),
      c.KeyID = "" → c.SecretKey = "" → credInitLoop (p :: ps) c = credInitLoop ps (p c)) ∧
    (∀ (ps : List (credentials → credentials)) (c : credentials),
      credInit ps c = .error .noCredentials ↔
        (credInitLoop ps c).KeyID = "" ∨ (credInitLoop ps c).SecretKey = "") := by
  refine ⟨?_, ?_, ?_, ?_, ?_⟩
  · intro env c
    refine ⟨?_, ?_, ?_, ?_, ?_, ?_⟩ <;> intro h
    · exact maybeLoadFromEnv_of_ne _ _ env h
    · exact maybeLoadFromEnv_of_ne _ _ env h
    · exact maybeLoadFromEnv_of_ne _ _ env h
    · show maybeLoadFromEnv c.KeyID _ env = _
      rw [h]; exact maybeLoadFromEnv_of_empty _ env
    · show maybeLoadFromEnv c.SecretKey _ env = _
      rw [h]; exact maybeLoadFromEnv_of_empty _ env
    · show maybeLoadFromEnv c.SessionToken _ env = _
      rw [h]; exact maybeLoadFromEnv_of_empty _ env
  · intro env c
    refine ⟨?_, ?_, ?_⟩
    · unfold resolvedKid
      by_cases h : c.kid = ""
      · rw [if_pos h, h]; exact maybeLoadFromEnv_of_empty _ env
      · rw [if_neg h]; exact maybeLoadFromEnv_of_ne _ _ env h
    · unfold resolvedKey
      by_cases h : c.key = ""
      · rw [if_pos h, h]; exact maybeLoadFromEnv_of_empty _ env
      · rw [if_neg h]; exact maybeLoadFromEnv_of_ne _ _ env h
    · unfold resolvedTok
      by_cases h : c.tok = ""
      · rw [if_pos h, h]; exact maybeLoadFromEnv_of_empty _ env
      · rw [if_neg h]; exact maybeLoadFromEnv_of_ne _ _ env h
  · intro ps c h
    cases ps with
    | nil => rfl
    | cons p ps => unfold credInitLoop; rw [if_neg h]
  · intro p ps c h1 h2
    conv_lhs => unfold credInitLoop
    rw [if_pos ⟨h1, h2⟩]
  · intro ps c
    unfold credInit
    by_cases h : (credInitLoop ps c).KeyID = "" ∨ (credInitLoop ps c).SecretKey = ""
    · rw [if_pos h]
      exact ⟨(fun _ => h), (fun _ => rfl)⟩
    · rw [if_neg h]
      exact ⟨(fun hh => by cases hh), (fun hh => absurd hh h)⟩

/-- Concrete evaluation witness for the amended resolution theorem. -/
theorem C5_amended_resolution_witness :
    (environGet envC ⟨"AKID", "", ""⟩).KeyID = "AKID" ∧
    (environGet envC ⟨"AKID", "", ""⟩).SecretKey = "sk" ∧
    credInitLoop [environGet envC] ⟨"AKID", "", ""⟩ = ⟨"AKID", "", ""⟩ := by
  refine ⟨(C5_amended_resolution.1 envC ⟨"AKID", "", ""⟩).1 (by decide), ?_, ?_⟩
  · rw [(C5_amended_resolution.1 envC ⟨"AKID", "", ""⟩).2.2.2.2.1 (by decide)]
    decide
  · exact C5_amended_resolution.2.2.1 [environGet envC] ⟨"AKID", "", ""⟩ (by decide)

/-! ### Helper lemmas on headers, digesting and canonicalization -/

theorem headerGet_headerSet (h : Headers) (k v : String) :
    headerGet (headerSet h k v) k = v := by
  induction h with
  | nil => simp [headerSet, headerGet]
  | cons p h ih =>
    by_cases hp : p.1 = k
    · have ha : (p :: h).any (fun q => q.1 = k) = true := by
        simp [List.any_cons, hp]
      rw [headerSet, if_pos ha]
      simp only [List.map_cons, if_pos hp]
      simp [headerGet]
    · by_cases hh : h.any (fun q => q.1 = k)
      · have ha : (p :: h).any (fun q => q.1 = k) = true := by
          simp [List.any_cons, hh]
        rw [headerSet, if_pos ha]
        simp only [List.map_cons, if_neg hp]
        rw [show headerGet ((p :: h.map fun q => if q.1 = k then (k, [v]) else q)) k =
              headerGet (h.map fun q => if q.1 = k then (k, [v]) else q) k from by
            cases p with
            | mk p1 p2 => simp [headerGet, hp]]
        rw [show (h.map fun q => if q.1 = k then (k, [v]) else q) = headerSet h k v from by
            rw [headerSet, if_pos hh]]
        exact ih
      · have hhf : h.any (fun q => q.1 = k) = false := Bool.eq_false_iff.mpr hh
        have ha : (p :: h).any (fun q => q.1 = k) = false := by
          rw [List.any_cons, hhf]
          simp [hp]
        rw [headerSet, ha]
        simp only [Bool.false_eq_true, if_false, List.cons_append]
        rw [show headerGet (p :: (h ++ [(k, [v])])) k = headerGet (h ++ [(k, [v])]) k from by
            cases p with
            | mk p1 p2 => simp [headerGet, hp]]
        rw [show h ++ [(k, [v])] = headerSet h k v from by
            rw [headerSet, hhf]
            simp]
        exact ih

theorem digestBody_frame (sha : Bytes → Bytes) (req : Request) :
    (digestBody sha req).2.method = req.method ∧
    (digestBody sha req).2.url = req.url ∧
    (digestBody sha req).2.host = req.host ∧
    (digestBody sha req).2.header = req.header := by
  cases hb : req.body <;> simp [digestBody, hb]

/-- The header state handed to `ensureDate` by `sign` is the request's
original header state. -/
theorem sign_digest_header (sha : Bytes → Bytes) (req : Request) :
    (if headerGet req.header PayloadHashHeader = "" then digestBody sha req
      else (headerGet req.header PayloadHashHeader, req)).2.header = req.header := by
  split
  · exact (digestBody_frame sha req).2.2.2
  · rfl

theorem canonicalHeaders_ext (r1 r2 : Request) (hh : r1.host = r2.host)
    (hu : r1.url = r2.url) (hd : r1.header = r2.header) :
    canonicalHeaders r1 = canonicalHeaders r2 := by
  unfold canonicalHeaders
  rw [hh, hu, hd]

theorem sign_body_eq (sha : Bytes → Bytes) (phd : String → Option GoTime) (now : GoTime)
    (s : Session) (req : Request) (hbd : headerGet req.header PayloadHashHeader = "") :
    (sign sha phd now s req).2.body = (digestBody sha req).2.body := by
  simp only [sign, hbd, if_pos rfl]
  split
  · simp
  · split <;> simp

theorem signDig_frame (sha : Bytes → Bytes) (req : Request) :
    (signDig sha req).2.method = req.method ∧ (signDig sha req).2.url = req.url ∧
    (signDig sha req).2.host = req.host ∧ (signDig sha req).2.header = req.header := by
  unfold signDig
  split
  · exact digestBody_frame sha req
  · exact ⟨rfl, rfl, rfl, rfl⟩

theorem sign_err_eq (sha : Bytes → Bytes) (phd : String → Option GoTime) (now : GoTime)
    (s : Session) (req : Request) (e : SigError)
    (hED : ensureDate phd now req.header = .error e) :
    sign sha phd now s req = (.error e, (signDig sha req).2) := by
  simp only [sign, signDig]
  rw [sign_digest_header sha req, hED]

theorem sign_ok_eq (sha : Bytes → Bytes) (phd : String → Option GoTime) (now : GoTime)
    (s : Session) (req : Request) (t : GoTime) (h2 : Headers)
    (hED : ensureDate phd now req.header = .ok (t, h2)) :
    sign sha phd now s req =
      (.ok (signCreq sha s req h2, signSts sha s t (signCreq sha s req h2)),
       { signReq3 sha s req h2 with
           header :=
             headerSet (signReq3 sha s req h2).header "Authorization"
               (signAuth sha s (canonicalHeaders (signReq3 sha s req h2)).2
                 (signSts sha s t (signCreq sha s req h2))) }) := by
  simp only [sign, signDig, signReq3, signCreq, signSts, signAuth]
  rw [sign_digest_header sha req, hED]

theorem signReq3_canonicalHeaders (sha : Bytes → Bytes) (s : Session) (req : Request)
    (h2 : Headers) :
    canonicalHeaders (signReq3 sha s req h2) =
      canonicalHeaders { req with header :=
        (if s.token ≠ "" then headerSet h2 securityToken s.token else h2) } := by
  unfold signReq3
  by_cases ht : s.token ≠ ""
  · rw [if_pos ht, if_pos ht]
    exact canonicalHeaders_ext _ _ (signDig_frame sha req).2.2.1 (signDig_frame sha req).2.1 rfl
  · rw [if_neg ht, if_neg ht]
    exact canonicalHeaders_ext _ _ (signDig_frame sha req).2.2.1 (signDig_frame sha req).2.1 rfl

/-! ### The string-to-sign and Authorization formats (C3) -/

/-- C3 counterexample: with region `r`, service `sv` and session date
`20150830`, the string to sign produced by `sign` carries the scope line
`20150830/r/sv/aws4_request` (date included), not the claim's
`r/sv/aws4_request`. -/
theorem C3_counterexample :
    NewSession shaZ envW cW "r" "sv" "20150830" = .ok sessZ ∧
    (sign shaZ phdZ nowZ sessZ reqZ).1.map Prod.snd =
      .ok "AWS4-HMAC-SHA256\n20150830T123600Z\n20150830/r/sv/aws4_request\n" ∧
    (sign shaZ phdZ nowZ sessZ reqZ).1.map Prod.snd ≠
      .ok "AWS4-HMAC-SHA256\n20150830T123600Z\nr/sv/aws4_request\n" := by decide

/-- C3 amended: for every successfully signed request, the string to sign
is the algorithm ID, the request timestamp, the scope components from the
date (scope index 1) through `aws4_request` joined with `/`, and the hex
SHA-256 of the canonical request, joined by newlines; the Authorization
header is the algorithm ID, a space, `Credential=` with the full scope,
`, SignedHeaders=` with the signed header names, and `, Signature=` with
the hex HMAC-SHA256 of the string to sign under the derived key. -/
theorem C3_amended_sign_formats (sha : Bytes → Bytes) (phd : String → Option GoTime)
    (now : GoTime) (env : String → String) (c : Config)
    (region service date : String) (s : Session) (req : Request)
    (creq sts : String) (req2 : Request)
    (hsess : NewSession sha env c region service date = .ok s)
    (hok : sign sha phd now s req = (.ok (creq, sts), req2)) :
    ∃ t h2,
      ensureDate phd now req.header = .ok (t, h2) ∧
      sts = "AWS4-HMAC-SHA256" ++ "\n" ++ formatAmzTime t ++ "\n" ++
        "/".intercalate [date, region, service, aws4Request] ++ "\n" ++
        hexBytes (sha (strBytes creq)) ∧
      headerGet req2.header "Authorization" =
        "AWS4-HMAC-SHA256" ++ " Credential=" ++
          "/".intercalate [resolvedKid env c, date, region, service, aws4Request] ++
          ", SignedHeaders=" ++
          (canonicalHeaders { req with header :=
            (if s.token ≠ "" then headerSet h2 securityToken s.token else h2) }).2 ++
          ", Signature=" ++ hexBytes (hmacSum sha s.key (strBytes sts)) := by
  have hscope : s.scope = [resolvedKid env c, date, region, service, aws4Request] := by
    simp only [NewSession] at hsess
    split at hsess
    · cases hsess
    · cases hsess; rfl
  cases hED : ensureDate phd now req.header with
  | error e =>
    rw [sign_err_eq sha phd now s req e hED] at hok
    injection hok with hok1 _
    cases hok1
  | ok pr =>
    obtain ⟨t, h2⟩ := pr
    rw [sign_ok_eq sha phd now s req t h2 hED] at hok
    injection hok with hok1 hok2
    injection hok1 with hok1
    injection hok1 with hcreq hsts
    subst hcreq
    subst hsts
    subst hok2
    refine ⟨t, h2, rfl, ?_, ?_⟩
    · unfold signSts
      rw [hscope]
      rfl
    · show headerGet
          (headerSet (signReq3 sha s req h2).header "Authorization"
            (signAuth sha s (canonicalHeaders (signReq3 sha s req h2)).2
              (signSts sha s t (signCreq sha s req h2)))) "Authorization" = _
      rw [headerGet_headerSet]
      unfold signAuth
      rw [hscope, signReq3_canonicalHeaders sha s req h2]

/-- Concrete evaluation witness for the amended sign-format theorem. -/
theorem C3_amended_sign_formats_witness :
    ∃ t h2,
      ensureDate phdZ nowZ reqZ.header = .ok (t, h2) ∧
      "AWS4-HMAC-SHA256\n20150830T123600Z\n20150830/r/sv/aws4_request\n" =
        "AWS4-HMAC-SHA256" ++ "\n" ++ formatAmzTime t ++ "\n" ++
        "/".intercalate ["20150830", "r", "sv", aws4Request] ++ "\n" ++
        hexBytes (shaZ (strBytes
          ("GET\n/\n\nhost:example.com\nx-amz-date:20150830T123600Z\n\nhost;x-amz-date\n" ++
            nilSum))) ∧
      headerGet (sign shaZ phdZ nowZ sessZ reqZ).2.header "Authorization" =
        "AWS4-HMAC-SHA256" ++ " Credential=" ++
          "/".intercalate [resolvedKid envW cW, "20150830", "r", "sv", aws4Request] ++
          ", SignedHeaders=" ++
          (canonicalHeaders { reqZ with header :=
            (if sessZ.token ≠ "" then headerSet h2 securityToken sessZ.token else h2) }).2 ++
          ", Signature=" ++ hexBytes (hmacSum shaZ sessZ.key (strBytes
            "AWS4-HMAC-SHA256\n20150830T123600Z\n20150830/r/sv/aws4_request\n")) := by
  have h1 : NewSession shaZ envW cW "r" "sv" "20150830" = .ok sessZ := by decide
  have hsg : sign shaZ phdZ nowZ sessZ reqZ =
      (.ok ("GET\n/\n\nhost:example.com\nx-amz-date:20150830T123600Z\n\nhost;x-amz-date\n" ++
              nilSum,
            "AWS4-HMAC-SHA256\n20150830T123600Z\n20150830/r/sv/aws4_request\n"),
       (sign shaZ phdZ nowZ sessZ reqZ).2) :=
    Prod.ext (by decide) rfl
  exact C3_amended_sign_formats shaZ phdZ nowZ envW cW "r" "sv" "20150830" sessZ reqZ
    _ _ _ h1 hsg

/-! ### Payload hashing frame effects (C6) -/

/-- C6 counterexample: a seekable body starting at offset 1 is rewound to
offset 0 (not its original position) by a signing call, and the payload
hash computable from the body changes. -/
theorem C6_counterexample :
    reqSeek1.body = .payload [97, 98] 1 ∧
    (sign idSha phdZ nowZ sessZ reqSeek1).2.body = .payload [97, 98] 0 ∧
    payloadHashOf idSha (sign idSha phdZ nowZ sessZ reqSeek1).2.body ≠
      payloadHashOf idSha reqSeek1.body := by decide

/-- C6 amended: a seekable body is hashed from its current position and
rewound to the beginning (offset 0); any other non-nil body is fully read
into an in-memory buffer that replaces it; the payload hash computable
from the body is preserved for non-seekable bodies always, and for
seekable bodies exactly when they start at offset 0; and a signing call
without a pre-set hash header transforms the body exactly as
`digestBody` does. -/
theorem C6_amended_digest (sha : Bytes → Bytes) (phd : String → Option GoTime)
    (now : GoTime) (s : Session) (req : Request) :
    (∀ d pos, req.body = .payload d pos →
      (digestBody sha req).1 = hexBytes (sha (d.drop pos)) ∧
      (digestBody sha req).2 = { req with body := .payload d 0 }) ∧
    (∀ d, req.body = .stream d →
      (digestBody sha req).1 = hexBytes (sha d) ∧
      (digestBody sha req).2 = { req with body := .buffered d } ∧
      payloadHashOf sha (digestBody sha req).2.body = payloadHashOf sha req.body) ∧
    (∀ d, req.body = .buffered d →
      (digestBody sha req).2 = { req with body := .buffered d } ∧
      payloadHashOf sha (digestBody sha req).2.body = payloadHashOf sha req.body) ∧
    (∀ d, req.body = .payload d 0 →
      payloadHashOf sha (digestBody sha req).2.body = payloadHashOf sha req.body) ∧
    (headerGet req.header PayloadHashHeader = "" →
      (sign sha phd now s req).2.body = (digestBody sha req).2.body) := by
  refine ⟨?_, ?_, ?_, ?_, ?_⟩
  · intro d pos hb
    constructor <;> simp [digestBody, hb]
  · intro d hb
    refine ⟨?_, ?_, ?_⟩ <;> simp [digestBody, hb, payloadHashOf]
  · intro d hb
    constructor <;> simp [digestBody, hb, payloadHashOf]
  · intro d hb
    simp [digestBody, hb, payloadHashOf]
  · exact sign_body_eq sha phd now s req

/-- Concrete evaluation witness for the amended digest theorem. -/
theorem C6_amended_digest_witness :
    (digestBody idSha reqSeek1).1 = hexBytes (idSha ([97, 98].drop 1)) ∧
    (digestBody idSha reqSeek1).2 = { reqSeek1 with body := .payload [97, 98] 0 } ∧
    (sign idSha phdZ nowZ sessZ reqSeek1).2.body = (digestBody idSha reqSeek1).2.body := by
  have h := C6_amended_digest idSha phdZ nowZ sessZ reqSeek1
  refine ⟨(h.1 [97, 98] 1 (by decide)).1, (h.1 [97, 98] 1 (by decide)).2, ?_⟩
  exact h.2.2.2.2 (by decide)

/-! ### Date-error ordering (C7) -/

/-- C7 counterexample: with a malformed `X-Amz-Date` and no pre-set
payload-hash header, `sign` does surface the date-parse error, but the
body has already been read and hashed: the seekable body that started at
offset 1 sits at offset 0 when the error is returned. -/
theorem C7_counterexample :
    (sign shaZ phdZ nowZ sessZ reqBadDate).1 = .error .dateParse ∧
    reqBadDate.body = .payload [97, 98] 1 ∧
    (sign shaZ phdZ nowZ sessZ reqBadDate).2.body = .payload [97, 98] 0 ∧
    (sign shaZ phdZ nowZ sessZ reqBadDate).2.body ≠ reqBadDate.body := by decide

/-- C7 amended: a malformed `X-Amz-Date` makes a signing call fail with
the date-parse error and leaves the request headers untouched (no
Authorization header is set), but the payload is hashed before date
validation, so the body may already have been read or buffered when the
error is returned. -/
theorem C7_amended_date_error (sha : Bytes → Bytes) (phd : String → Option GoTime)
    (now : GoTime) (s : Session) (req : Request)
    (hne : headerGet req.header DateHeader ≠ "")
    (hbad : parseAmzTime (headerGet req.header DateHeader) = none) :
    (sign sha phd now s req).1 = .error .dateParse ∧
    (sign sha phd now s req).2.header = req.header ∧
    (sign sha phd now s req).2.body = (signDig sha req).2.body := by
  have hED : ensureDate phd now req.header = .error .dateParse := by
    unfold ensureDate
    rw [if_pos hne, hbad]
  rw [sign_err_eq sha phd now s req .dateParse hED]
  exact ⟨rfl, (signDig_frame sha req).2.2.2, rfl⟩

/-- Concrete evaluation witness for the amended date-error theorem. -/
theorem C7_amended_date_error_witness :
    (sign shaZ phdZ nowZ sessZ reqBadDate).1 = .error .dateParse ∧
    (sign shaZ phdZ nowZ sessZ reqBadDate).2.header = reqBadDate.header :=
  ⟨(C7_amended_date_error shaZ phdZ nowZ sessZ reqBadDate (by decide) (by decide)).1,
   (C7_amended_date_error shaZ phdZ nowZ sessZ reqBadDate (by decide) (by decide)).2.1⟩

/-! ### envrc parsing (C9) -/

theorem envrcFoldl (ls : List (List Char)) : ∀ (tgt : Target) (h e x : List Char),
    ls.foldl envrcStep (tgt, h, e, x) =
      (finalTarget ls tgt,
       h ++ (linesOfSection .common ls tgt).flatten,
       e ++ (linesOfSection .enter ls tgt).flatten,
       x ++ (linesOfSection .exit ls tgt).flatten) := by
  induction ls with
  | nil =>
    intro tgt h e x
    simp [finalTarget, linesOfSection]
  | cons l ls ih =>
    intro tgt h e x
    rw [List.foldl_cons]
    by_cases he : lineIsEnter l
    · rw [show envrcStep (tgt, h, e, x) l = (Target.enter, h, e, x) from by
          simp [envrcStep, he]]
      rw [ih Target.enter h e x]
      simp [finalTarget, linesOfSection, he]
    · by_cases hx : lineIsExit l
      · rw [show envrcStep (tgt, h, e, x) l = (Target.exit, h, e, x) from by
            simp [envrcStep, he, hx]]
        rw [ih Target.exit h e x]
        simp [finalTarget, linesOfSection, he, hx]
      · cases tgt with
        | common =>
          rw [show envrcStep (Target.common, h, e, x) l = (Target.common, h ++ l, e, x) from by
              simp [envrcStep, he, hx]]
          rw [ih Target.common (h ++ l) e x]
          simp [finalTarget, linesOfSection, he, hx, List.append_assoc]
        | enter =>
          rw [show envrcStep (Target.enter, h, e, x) l = (Target.enter, h, e ++ l, x) from by
              simp [envrcStep, he, hx]]
          rw [ih Target.enter h (e ++ l) x]
          simp [finalTarget, linesOfSection, he, hx, List.append_assoc]
        | exit =>
          rw [show envrcStep (Target.exit, h, e, x) l = (Target.exit, h, e, x ++ l) from by
              simp [envrcStep, he, hx]]
          rw [ih Target.exit h e (x ++ l)]
          simp [finalTarget, linesOfSection, he, hx, List.append_assoc]

theorem linesOfSection_common_off (ls : List (List Char)) :
    ∀ cur, cur ≠ Target.common → linesOfSection Target.common ls cur = [] := by
  induction ls with
  | nil => intro cur _; rfl
  | cons l ls ih =>
    intro cur hc
    unfold linesOfSection
    by_cases he : lineIsEnter l
    · rw [if_pos he]
      exact ih Target.enter (by simp)
    · by_cases hx : lineIsExit l
      · rw [if_neg he, if_pos hx]
        exact ih Target.exit (by simp)
      · rw [if_neg he, if_neg hx, if_neg hc]
        simp [ih cur hc]

theorem linesOfSection_common_takeWhile (ls : List (List Char)) :
    linesOfSection Target.common ls Target.common = ls.takeWhile notHeader := by
  induction ls with
  | nil => rfl
  | cons l ls ih =>
    unfold linesOfSection
    by_cases he : lineIsEnter l
    · have hn : notHeader l = false := by simp [notHeader, he]
      rw [List.takeWhile_cons, hn, if_pos he]
      simp
      exact linesOfSection_common_off ls Target.enter (by simp)
    · by_cases hx : lineIsExit l
      · have hn : notHeader l = false := by simp [notHeader, he, hx]
        rw [List.takeWhile_cons, hn, if_neg he, if_pos hx]
        simp
        exact linesOfSection_common_off ls Target.exit (by simp)
      · have hn : notHeader l = true := by simp [notHeader, he, hx]
        rw [List.takeWhile_cons, hn, if_neg he, if_neg hx, if_pos rfl]
        simp [ih]

/-- C9: `envrc.Parse` returns the pair (enter, exit) in which the lines
before the first section header are common to both results, a line
beginning with `enter:` or `exit:` switches collection to that section
and is itself excluded, each result is the common lines followed by its
section's lines, and both results are trimmed of leading and trailing
newline characters. -/
theorem C9_envrc_parse (text : String) :
    envrcParse text =
      (String.mk (trimNl (((scanLinesGo text.toList).takeWhile notHeader).flatten ++
         (linesOfSection .enter (scanLinesGo text.toList) .common).flatten)),
       String.mk (trimNl (((scanLinesGo text.toList).takeWhile notHeader).flatten ++
         (linesOfSection .exit (scanLinesGo text.toList) .common).flatten))) := by
  unfold envrcParse
  rw [envrcFoldl (scanLinesGo text.toList) Target.common [] [] []]
  rw [← linesOfSection_common_takeWhile]
  simp

/-! ### TOTP (C10) -/

/-- C10: for every secret that base32-decodes after upper-casing and
every challenge, `totp` returns a code in `0 .. 999999` and no error;
for every secret that fails to decode it returns `-1` and an error. -/
theorem C10_totp_range (sha1 : Bytes → Bytes) (secret : String) (c : Int) :
    (∀ k, base32Decode (upperStr secret) = some k →
      ∃ n : Nat, totp sha1 secret c = (Int.ofNat n, false) ∧ n < 1000000) ∧
    (base32Decode (upperStr secret) = none → totp sha1 secret c = (-1, true)) := by
  constructor
  · intro k hk
    unfold totp
    rw [hk]
    exact ⟨_, rfl, Nat.mod_lt _ (by omega)⟩
  · intro hk
    unfold totp
    rw [hk]

/-- Concrete evaluation witness for the TOTP theorem. -/
theorem C10_totp_range_witness :
    base32Decode (upperStr "jbswy3dp") = some [72, 101, 108, 108, 111] ∧
    (∃ n : Nat, totp sha1W "jbswy3dp" 1 = (Int.ofNat n, false) ∧ n < 1000000) ∧
    base32Decode (upperStr "????????") = none ∧
    totp sha1W "????????" 1 = (-1, true) :=
  ⟨by decide,
   (C10_totp_range sha1W "jbswy3dp" 1).1 [72, 101, 108, 108, 111] (by decide),
   by decide,
   (C10_totp_range sha1W "????????" 1).2 (by decide)⟩

end PxiX
